import Mathlib

/-!
# polymur: consistent-hash ring and HTTP gateway writer

A shallow embedding of `consistenthash/main.go` (the hash ring: `AddNode`,
`RemoveNode`, `GetNode`, `getHashKey`) and of the batching part of
`output/http.go` (`packDataPoints`, `writeStream`), together with the
properties proved about them.

Conventions of the embedding.

* A Go `string` is a Lean `String`; `[]byte(s)` is its UTF-8 encoding, a list
  of naturals below 256.
* A Go `int` is an `Int`; no operation of the ring comes near the 64-bit bounds.
* The mutexes of `HashRing` guard against concurrent access only; every
  operation is modelled as the atomic state change it performs under the lock.
* Library routines are embedded from their definition where the definition is
  fixed (`crypto/md5`, `sort.Search`, `strconv.ParseInt`, the hexadecimal verb of
  `fmt`).  `sort.Sort` is a parameter `sortFn`, constrained by the contract of
  its documentation (`SortSpec`): the order of equal elements is not fixed by
  the library and differs between its releases.  `compress/gzip` is a parameter
  `gz`, the function from the bytes written to a writer to the stream it emits
  on `Close`.
-/

namespace Polymur

/-! ## crypto/md5 (RFC 1321) -/

namespace md5

/-- Per-round left-rotation amounts. -/
def shifts : List Nat :=
  [7, 12, 17, 22, 7, 12, 17, 22, 7, 12, 17, 22, 7, 12, 17, 22,
   5, 9, 14, 20, 5, 9, 14, 20, 5, 9, 14, 20, 5, 9, 14, 20,
   4, 11, 16, 23, 4, 11, 16, 23, 4, 11, 16, 23, 4, 11, 16, 23,
   6, 10, 15, 21, 6, 10, 15, 21, 6, 10, 15, 21, 6, 10, 15, 21]

/-- The sine table: entry `i` is the integer part of `2^32 * |sin (i + 1)|`. -/
def table : List Nat :=
  [3614090360, 3905402710, 606105819, 3250441966, 4118548399, 1200080426, 2821735955, 4249261313,
   1770035416, 2336552879, 4294925233, 2304563134, 1804603682, 4254626195, 2792965006, 1236535329,
   4129170786, 3225465664, 643717713, 3921069994, 3593408605, 38016083, 3634488961, 3889429448,
   568446438, 3275163606, 4107603335, 1163531501, 2850285829, 4243563512, 1735328473, 2368359562,
   4294588738, 2272392833, 1839030562, 4259657740, 2763975236, 1272893353, 4139469664, 3200236656,
   681279174, 3936430074, 3572445317, 76029189, 3654602809, 3873151461, 530742520, 3299628645,
   4096336452, 1126891415, 2878612391, 4237533241, 1700485571, 2399980690, 4293915773, 2240044497,
   1873313359, 4264355552, 2734768916, 1309151649, 4149444226, 3174756917, 718787259, 3951481745]

/-- The modulus of 32-bit words, `2^32`. -/
def w32 : Nat := 4294967296

/-- Bitwise complement of a 32-bit word. -/
def not32 (x : Nat) : Nat := (w32 - 1) ^^^ (x % w32)

/-- Left rotation of a 32-bit word by `c` bits. -/
def rotl (x c : Nat) : Nat := ((x <<< c) ||| (x >>> (32 - c))) % w32

/-- The four chaining words. -/
structure State where
  a : Nat
  b : Nat
  c : Nat
  d : Nat
deriving Repr, DecidableEq

/-- The initial chaining value. -/
def init : State := ⟨1732584193, 4023233417, 2562383102, 271733878⟩

/-- Operation `i` (0..63) of the compression function on the message words `m`. -/
def step (m : List Nat) (s : State) (i : Nat) : State :=
  let f := if i < 16 then (s.b &&& s.c) ||| (not32 s.b &&& s.d)
    else if i < 32 then (s.d &&& s.b) ||| (not32 s.d &&& s.c)
    else if i < 48 then s.b ^^^ s.c ^^^ s.d
    else s.c ^^^ (s.b ||| not32 s.d)
  let g := if i < 16 then i
    else if i < 32 then (5 * i + 1) % 16
    else if i < 48 then (3 * i + 5) % 16
    else (7 * i) % 16
  let x := (f + s.a + table.getD i 0 + m.getD g 0) % w32
  ⟨s.d, (s.b + rotl x (shifts.getD i 0)) % w32, s.b, s.c⟩

/-- Little-endian 32-bit word number `j` of a block of bytes. -/
def word (bs : List Nat) (j : Nat) : Nat :=
  bs.getD (4 * j) 0 + 256 * bs.getD (4 * j + 1) 0 + 65536 * bs.getD (4 * j + 2) 0
    + 16777216 * bs.getD (4 * j + 3) 0

/-- The compression function on one 64-byte block. -/
def block (s : State) (bs : List Nat) : State :=
  let m := (List.range 16).map (word bs)
  let t := (List.range 64).foldl (step m) s
  ⟨(s.a + t.a) % w32, (s.b + t.b) % w32, (s.c + t.c) % w32, (s.d + t.d) % w32⟩

/-- The `k` low bytes of `n`, least significant first. -/
def le (n : Nat) : Nat → List Nat
  | 0 => []
  | k + 1 => n % 256 :: le (n / 256) k

/-- Message padding: a 0x80 byte, zeros up to 56 modulo 64, the bit length on 8 bytes. -/
def pad (msg : List Nat) : List Nat :=
  msg ++ 128 :: List.replicate ((119 - msg.length % 64) % 64) 0
    ++ le ((8 * msg.length) % 18446744073709551616) 8

/-- Runs the compression function over `k` consecutive 64-byte blocks. -/
def blocks : Nat → State → List Nat → State
  | 0, s, _ => s
  | k + 1, s, bs => blocks k (block s (bs.take 64)) (bs.drop 64)

/-- The 16-byte MD5 digest of a byte string (`md5.Sum`). -/
def Sum (msg : List Nat) : List Nat :=
  let p := pad msg
  let s := blocks (p.length / 64) init p
  le s.a 4 ++ le s.b 4 ++ le s.c 4 ++ le s.d 4

end md5

/-! ## Strings, fmt and strconv -/

/-- UTF-8 encoding of one code point. -/
def utf8 (c : Nat) : List Nat :=
  if c < 128 then [c]
  else if c < 2048 then [192 + c / 64, 128 + c % 64]
  else if c < 65536 then [224 + c / 4096, 128 + c / 64 % 64, 128 + c % 64]
  else [240 + c / 262144, 128 + c / 4096 % 64, 128 + c / 64 % 64, 128 + c % 64]

/-- The bytes of a string, `[]byte(s)`. -/
def bytes (s : String) : List Nat := s.data.flatMap fun c => utf8 c.toNat

/-- One lower-case hexadecimal digit. -/
def hexDigit (n : Nat) : Char := if n < 10 then Char.ofNat (48 + n) else Char.ofNat (87 + n)

/-- The verb `%x` of `fmt.Sprintf` on a byte slice: two lower-case hexadecimal digits
per byte. -/
def sprintfHex (bs : List Nat) : List Char :=
  bs.flatMap fun b => [hexDigit (b / 16), hexDigit (b % 16)]

/-- The verb pair `%s:%d` of `fmt.Sprintf` on a string and a non-negative integer. -/
def sprintfLabel (keyname : String) (i : Nat) : String := keyname ++ ":" ++ toString i

/-- Value of one digit in base 16, as `strconv` reads it. -/
def hexVal (c : Char) : Option Nat :=
  let n := c.toNat
  if 48 ≤ n ∧ n ≤ 57 then some (n - 48)
  else if 97 ≤ n ∧ n ≤ 102 then some (n - 87)
  else if 65 ≤ n ∧ n ≤ 70 then some (n - 55)
  else none

/-- Accumulates base-16 digits, most significant first; `none` on a character that is
not a digit. -/
def parseHex : List Char → Nat → Option Nat
  | [], acc => some acc
  | c :: cs, acc =>
    match hexVal c with
    | some d => parseHex cs (16 * acc + d)
    | none => none

/-- The call `strconv.ParseInt(s, 16, 32)`: the value and whether an error is returned.
A syntax error gives 0; a value outside the signed 32-bit range gives the
nearest bound. -/
def ParseInt (s : List Char) : Int × Bool :=
  let neg := s.head? == some '-'
  let ds := if s.head? == some '+' ∨ s.head? == some '-' then s.tail else s
  if ds = [] then (0, true)
  else
    match parseHex ds 0 with
    | none => (0, true)
    | some v =>
      if neg then
        if 2147483648 < v then (-2147483648, true) else (-(v : Int), false)
      else
        if 2147483647 < v then (2147483647, true) else ((v : Int), false)

/-! ## consistenthash -/

/-- A ring node: its position `nodeId` and the destination name `nodeName`. -/
structure node where
  nodeId : Int
  nodeName : String
deriving Repr, DecidableEq

/-- The hash ring: the number of virtual nodes per destination and the node list. -/
structure HashRing where
  Vnodes : Int
  nodes : List node
deriving Repr, DecidableEq

/-- The comparison of `nodeList.Less` on two nodes. -/
def Less (a b : node) : Bool := decide (a.nodeId < b.nodeId)

/-- The contract of `sort.Sort` on a node list: the result is a rearrangement of the
input in which no element is `Less` than an earlier one.  Nothing is promised on
the order of elements that compare equal. -/
def SortSpec (sortFn : List node → List node) : Prop :=
  ∀ l, (sortFn l).Perm l ∧ (sortFn l).Pairwise (fun a b => Less b a = false)

/-- The function `getHashKey`: the first two bytes of the MD5 digest, printed in
hexadecimal and parsed back in base 16; the parse error is discarded. -/
def getHashKey (s : String) : Int :=
  let bigHash := md5.Sum (bytes s)
  let smallHash := sprintfHex (bigHash.take 2)
  (ParseInt smallHash).1

/-- The method `HashRing.AddNode`: appends one node per virtual-node index `i` with
`0 ≤ i < Vnodes` (none when `Vnodes ≤ 0`), then sorts. -/
def AddNode (sortFn : List node → List node) (h : HashRing) (keyname name : String) :
    HashRing :=
  let nodes := (List.range h.Vnodes.toNat).foldl
    (fun ns i => ns ++ [⟨getHashKey (sprintfLabel keyname i), name⟩]) h.nodes
  { h with nodes := sortFn nodes }

/-- The method `HashRing.RemoveNode`: rebuilds the list from the nodes with another name. -/
def RemoveNode (h : HashRing) (name : String) : HashRing :=
  let newNodes := h.nodes.foldl
    (fun acc n => if n.nodeName != name then acc ++ [n] else acc) []
  { h with nodes := newNodes }

/-- The loop of `sort.Search` on the interval `[i, j)`, with fuel for the number of
iterations; the predicate may fail (an index out of range in the caller). -/
def searchLoop (f : Nat → Except String Bool) : Nat → Nat → Nat → Except String Nat
  | 0, i, _ => .ok i
  | fuel + 1, i, j =>
    if i < j then
      let h := (i + j) / 2
      match f h with
      | .error e => .error e
      | .ok false => searchLoop f fuel (h + 1) j
      | .ok true => searchLoop f fuel i h
    else .ok i

/-- The function `sort.Search n f`; the interval shrinks at every iteration, so `n`
iterations are enough. -/
def Search (n : Nat) (f : Nat → Except String Bool) : Except String Nat :=
  searchLoop f n 0 n

/-- Indexing a node list; an index out of range is a run-time failure. -/
def index (ns : List node) (i : Nat) : Except String node :=
  match ns.get? i with
  | some n => .ok n
  | none => .error "index out of range"

/-- The method `HashRing.GetNode`. -/
def GetNode (h : HashRing) (k : String) : Except String String :=
  if h.nodes.length = 0 then .error "Hash ring is empty"
  else
    let hk := getHashKey k
    match Search h.nodes.length
        (fun i => (index h.nodes i).map fun n => decide (n.nodeId ≥ hk)) with
    | .error e => .error e
    | .ok r =>
      let i := r % h.nodes.length
      (index h.nodes i).map fun n => n.nodeName

/-- Ring states reached from the empty ring with `vnodes` virtual nodes per destination
by calls of `AddNode` and `RemoveNode`. -/
inductive Reachable (sortFn : List node → List node) (vnodes : Int) : HashRing → Prop
  | empty : Reachable sortFn vnodes ⟨vnodes, []⟩
  | add (h : HashRing) (keyname name : String) :
      Reachable sortFn vnodes h → Reachable sortFn vnodes (AddNode sortFn h keyname name)
  | remove (h : HashRing) (name : String) :
      Reachable sortFn vnodes h → Reachable sortFn vnodes (RemoveNode h name)

/-! ### An instance of `sort.Sort`

The routine run by `sort.Sort` on slices of at most 12 elements in Go 1.7 to 1.18:
one pass of Shell sort with gap 6, then insertion sort.  It sorts lists of any
length, which makes it an instance of `SortSpec`, and it is `sort.Sort` itself on
the slices of at most 12 elements of those releases.  Other releases agree with it
on every slice without tied elements and may order tied elements otherwise: from
Go 1.19 on, a slice of at most 12 elements goes through `insertionSort` alone, which
leaves tied elements in their order, and a longer slice through a quicksort that
does not.  The general theorems below hold for every `sortFn` that meets `SortSpec`;
the instance serves at concrete inputs only. -/

/-- Exchanges the elements at indices `i` and `j` (`nodeList.Swap`). -/
def swap (l : List node) (i j : Nat) : List node :=
  match l.get? i, l.get? j with
  | some a, some b => (l.set i b).set j a
  | _, _ => l

/-- The pass with gap 6: for `i` from 6 upwards, exchange elements `i` and `i - 6`
when the former is `Less`. -/
def shellPass (l : List node) : List node :=
  (List.range (l.length - 6)).foldl
    (fun acc k =>
      match acc.get? (k + 6), acc.get? k with
      | some a, some b => if Less a b then swap acc (k + 6) k else acc
      | _, _ => acc) l

/-- The inner loop of `insertionSort` started at index `j`: while the element at `j` is
`Less` than its left neighbour, exchange them and move left. -/
def sinkLoop (l : List node) : Nat → List node
  | 0 => l
  | j + 1 =>
    match l.get? (j + 1), l.get? j with
    | some x, some y => if Less x y then sinkLoop (swap l (j + 1) j) j else l
    | _, _ => l

/-- The routine `insertionSort` of package `sort` on the whole slice: the inner loop is
run from every index `1, 2, ...` in turn. -/
def insertionSort (l : List node) : List node :=
  (List.range (l.length - 1)).foldl (fun acc k => sinkLoop acc (k + 1)) l

/-- Gap-6 pass followed by insertion sort. -/
def shellInsertionSort (l : List node) : List node :=
  insertionSort (shellPass l)

/-! ## output: the HTTP gateway writer -/

/-- The loop of `packDataPoints` over the batch: `w` is the sequence of bytes written to
the compressor so far, `count` the number of entries written. -/
def packLoop : List (Option String) → List Nat → Nat → List Nat × Nat
  | [], w, count => (w, count)
  | none :: _, w, count => (w, count)
  | some s :: rest, w, count => packLoop rest ((w ++ bytes s) ++ [10]) (count + 1)

/-- The function `packDataPoints` up to the closing of the writer: the bytes written to
the compressor and the returned count. -/
def packDataPoints (w : List Nat) (d : List (Option String)) : List Nat × Nat :=
  packLoop d w 0

/-- What the HTTP client did with one request. -/
inductive PostResult where
  | ok200
  | non200
  | transportError
deriving Repr, DecidableEq

/-- The outcome of one call of `apiPost`: the result, and the number of bytes the client
read from the request body before returning (none when the connection could not
be established). -/
structure PostOutcome where
  result : PostResult
  consumed : Nat
deriving Repr, DecidableEq

/-- The loop of `writeStream`.  `data` is the unread content of the buffer shared by
the compressor and the request body.  For each batch: the entries are written to
the compressor, closing it appends the compressed stream to `data`, `data` is
offered as the body of the POST to `/ingest`, the client reads `consumed` bytes of
it, and the compressor is reset onto the same buffer.  Returns the bodies
offered, in order. -/
def writeLoop (gz : List Nat → List Nat) :
    List (List (Option String) × PostOutcome) → List Nat → List (List Nat)
  | [], _ => []
  | (m, o) :: rest, data =>
    let body := data ++ gz (packDataPoints [] m).1
    body :: writeLoop gz rest (body.drop o.consumed)

/-- The function `writeStream` on the batches received, each with the outcome of its
POST: the request bodies offered to `/ingest`. -/
def writeStream (gz : List Nat → List Nat)
    (queue : List (List (Option String) × PostOutcome)) : List (List Nat) :=
  writeLoop gz queue []

/-! ## Definitions used in the statements -/

/-- The nodes that `AddNode keyname name` appends on a ring with `n` virtual nodes. -/
def newNodes (n : Nat) (keyname name : String) : List node :=
  (List.range n).map fun i => ⟨getHashKey (sprintfLabel keyname i), name⟩

/-- Sortedness of a node list: positions never decrease along the list. -/
def SortedNodes (l : List node) : Prop := l.Pairwise (fun a b => a.nodeId ≤ b.nodeId)

/-- The node the description of `GetNode` designates for the hash position `hk`: the
first node in list order whose position is at least `hk`, and the node at index 0
when there is none. -/
def ringSuccessor (ns : List node) (hk : Int) : Option node :=
  match ns.find? (fun n => decide (hk ≤ n.nodeId)) with
  | some n => some n
  | none => ns.head?

/-- The number of nodes of a list with destination name `d`. -/
def namedCount (ns : List node) (d : String) : Nat := ns.countP fun n => n.nodeName == d

/-- Two destinations `A` and `B` with two virtual nodes each. -/
def ringAB : HashRing :=
  AddNode shellInsertionSort (AddNode shellInsertionSort ⟨2, []⟩ "x" "A") "y" "B"

/-- One destination `d` with one virtual node. -/
def ringD : HashRing := AddNode shellInsertionSort ⟨1, []⟩ "k" "d"

/-- Six destinations with one virtual node each; the labels `xh:0` and `yd:0` hash to
the same position. -/
def ring6 : HashRing :=
  AddNode shellInsertionSort (AddNode shellInsertionSort (AddNode shellInsertionSort
    (AddNode shellInsertionSort (AddNode shellInsertionSort (AddNode shellInsertionSort
      ⟨1, []⟩ "xh" "xh") "yd" "yd") "a" "a") "b" "b") "c" "c") "d" "d"

/-! ## Auxiliary lemmas -/

set_option maxRecDepth 1000000 in
/-- The digest of the empty string, first test vector of RFC 1321. -/
theorem md5_Sum_empty :
    md5.Sum (bytes "") = [212, 29, 140, 217, 143, 0, 178, 4, 233, 128, 9, 152, 236, 248, 66, 126] := by
  decide

set_option maxRecDepth 1000000 in
/-- The digest of `abc`, third test vector of RFC 1321. -/
theorem md5_Sum_abc :
    md5.Sum (bytes "abc")
      = [144, 1, 80, 152, 60, 210, 79, 176, 214, 150, 63, 125, 40, 225, 127, 114] := by
  decide

set_option maxRecDepth 1000000 in
/-- A digest over two blocks: the 80-digit test vector of RFC 1321. -/
theorem md5_Sum_digits :
    md5.Sum (bytes
      "12345678901234567890123456789012345678901234567890123456789012345678901234567890")
      = [87, 237, 244, 162, 43, 227, 201, 85, 172, 73, 218, 46, 33, 7, 182, 122] := by
  decide

theorem hexVal_hexDigit (d : Nat) (hd : d < 16) : hexVal (hexDigit d) = some d := by
  interval_cases d <;> decide

theorem hexDigit_not_sign (d : Nat) (hd : d < 16) :
    (hexDigit d == '+') = false ∧ (hexDigit d == '-') = false := by
  interval_cases d <;> decide

theorem ParseInt_four (d0 d1 d2 d3 : Nat) (h0 : d0 < 16) (h1 : d1 < 16) (h2 : d2 < 16)
    (h3 : d3 < 16) :
    ParseInt [hexDigit d0, hexDigit d1, hexDigit d2, hexDigit d3]
      = (((4096 * d0 + 256 * d1 + 16 * d2 + d3 : Nat) : Int), false) := by
  obtain ⟨hp, hm⟩ := hexDigit_not_sign d0 h0
  have hp' : hexDigit d0 ≠ '+' := by simpa using hp
  have hm' : hexDigit d0 ≠ '-' := by simpa using hm
  have hv : parseHex [hexDigit d0, hexDigit d1, hexDigit d2, hexDigit d3] 0
      = some (4096 * d0 + 256 * d1 + 16 * d2 + d3) := by
    simp only [parseHex, hexVal_hexDigit _ h0, hexVal_hexDigit _ h1, hexVal_hexDigit _ h2,
      hexVal_hexDigit _ h3]
    congr 1
    ring
  have hlt : ¬ (2147483647 < 4096 * d0 + 256 * d1 + 16 * d2 + d3) := by omega
  simp [ParseInt, hp', hm', hv, hlt]

theorem md5_Sum_take_two (msg : List Nat) :
    ∃ a : Nat, (md5.Sum msg).take 2 = [a % 256, a / 256 % 256] ∧
      (md5.Sum msg).getD 0 0 = a % 256 ∧ (md5.Sum msg).getD 1 0 = a / 256 % 256 := by
  refine ⟨(md5.blocks ((md5.pad msg).length / 64) md5.init (md5.pad msg)).a, ?_, ?_, ?_⟩ <;>
    simp [md5.Sum, md5.le]

theorem md5_Sum_length (msg : List Nat) : (md5.Sum msg).length = 16 := by
  simp [md5.Sum, md5.le]

theorem getHashKey_bytes (s : String) :
    getHashKey s = 256 * ((md5.Sum (bytes s)).getD 0 0 : Int) + ((md5.Sum (bytes s)).getD 1 0 : Int)
    ∧ (md5.Sum (bytes s)).getD 0 0 < 256 ∧ (md5.Sum (bytes s)).getD 1 0 < 256 := by
  obtain ⟨a, ht, h0, h1⟩ := md5_Sum_take_two (bytes s)
  have hb0 : a % 256 < 256 := Nat.mod_lt _ (by norm_num)
  have hb1 : a / 256 % 256 < 256 := Nat.mod_lt _ (by norm_num)
  refine ⟨?_, by omega, by omega⟩
  simp only [getHashKey, ht, sprintfHex, List.flatMap_cons, List.flatMap_nil, List.append_nil,
    List.cons_append, List.nil_append]
  rw [ParseInt_four _ _ _ _ (by omega) (Nat.mod_lt _ (by norm_num)) (by omega)
    (Nat.mod_lt _ (by norm_num)), h0, h1]
  simp only
  omega

theorem foldl_append_singleton {α β : Type} (g : β → α) (l : List β) (acc : List α) :
    l.foldl (fun ns i => ns ++ [g i]) acc = acc ++ l.map g := by
  induction l generalizing acc with
  | nil => simp
  | cons x xs ih => simp [ih]

theorem foldl_append_if {α : Type} (p : α → Bool) (l : List α) (acc : List α) :
    l.foldl (fun ns n => if p n then ns ++ [n] else ns) acc = acc ++ l.filter p := by
  induction l generalizing acc with
  | nil => simp
  | cons x xs ih =>
    by_cases hx : p x = true
    · simp [ih, hx]
    · simp [ih, hx]

theorem AddNode_nodes (sortFn : List node → List node) (h : HashRing) (keyname name : String) :
    (AddNode sortFn h keyname name).nodes
      = sortFn (h.nodes ++ newNodes h.Vnodes.toNat keyname name) := by
  simp only [AddNode, newNodes]
  rw [foldl_append_singleton (fun i => (⟨getHashKey (sprintfLabel keyname i), name⟩ : node))]

theorem RemoveNode_nodes (h : HashRing) (name : String) :
    (RemoveNode h name).nodes = h.nodes.filter (fun n => n.nodeName != name) := by
  simp only [RemoveNode]
  rw [foldl_append_if (fun n : node => n.nodeName != name)]
  simp

theorem AddNode_Vnodes (sortFn : List node → List node) (h : HashRing) (keyname name : String) :
    (AddNode sortFn h keyname name).Vnodes = h.Vnodes := rfl

theorem RemoveNode_Vnodes (h : HashRing) (name : String) :
    (RemoveNode h name).Vnodes = h.Vnodes := rfl

theorem SortSpec_sorted {sortFn : List node → List node} (hs : SortSpec sortFn) (l : List node) :
    SortedNodes (sortFn l) := by
  have h := (hs l).2
  unfold SortedNodes
  refine h.imp ?_
  intro a b hab
  simpa [Less] using hab

theorem Reachable_sorted {sortFn : List node → List node} (hs : SortSpec sortFn) {v : Int}
    {h : HashRing} (hr : Reachable sortFn v h) : SortedNodes h.nodes := by
  induction hr with
  | empty => exact List.Pairwise.nil
  | add h k d _ _ => rw [AddNode_nodes]; exact SortSpec_sorted hs _
  | remove h d _ ih => rw [RemoveNode_nodes]; exact List.Pairwise.filter _ ih

theorem Reachable_vnodes {sortFn : List node → List node} {v : Int}
    {h : HashRing} (hr : Reachable sortFn v h) : h.Vnodes = v := by
  induction hr with
  | empty => rfl
  | add h k d _ ih => rw [AddNode_Vnodes]; exact ih
  | remove h d _ ih => rw [RemoveNode_Vnodes]; exact ih

/-- Every run of the search loop inside `[0, n)` on a predicate defined there returns an
index of `[i, j]`. -/
theorem searchLoop_ok (f : Nat → Except String Bool) (p : Nat → Bool) (n : Nat)
    (hf : ∀ k, k < n → f k = .ok (p k)) :
    ∀ fuel i j, i ≤ j → j ≤ n → ∃ r, searchLoop f fuel i j = .ok r ∧ i ≤ r ∧ r ≤ j := by
  intro fuel
  induction fuel with
  | zero => intro i j hij _; exact ⟨i, rfl, le_refl _, hij⟩
  | succ fuel ih =>
    intro i j hij hjn
    unfold searchLoop
    by_cases hlt : i < j
    · have hm : (i + j) / 2 < n := by omega
      simp only [hlt, if_true, hf _ hm]
      cases hp : p ((i + j) / 2) with
      | false =>
        obtain ⟨r, hr, h1, h2⟩ := ih ((i + j) / 2 + 1) j (by omega) hjn
        exact ⟨r, hr, by omega, h2⟩
      | true =>
        obtain ⟨r, hr, h1, h2⟩ := ih i ((i + j) / 2) (by omega) (by omega)
        exact ⟨r, hr, h1, by omega⟩
    · simp only [hlt, if_false]
      exact ⟨i, rfl, le_refl _, hij⟩

/-- On a monotone predicate the search loop, given enough fuel, returns the least index
at which the predicate holds, or `n` when there is none. -/
theorem searchLoop_least (f : Nat → Except String Bool) (p : Nat → Bool) (n : Nat)
    (hf : ∀ k, k < n → f k = .ok (p k))
    (hmono : ∀ a b, a ≤ b → b < n → p a = true → p b = true) :
    ∀ fuel i j, i ≤ j → j ≤ n → j - i ≤ fuel →
      (∀ k, k < i → p k = false) → (∀ k, j ≤ k → k < n → p k = true) →
      ∃ r, searchLoop f fuel i j = .ok r ∧ r ≤ n ∧
        (∀ k, k < r → p k = false) ∧ (∀ k, r ≤ k → k < n → p k = true) := by
  intro fuel
  induction fuel with
  | zero =>
    intro i j hij hjn hfuel hlo hhi
    have : i = j := by omega
    subst this
    exact ⟨i, rfl, hjn, hlo, hhi⟩
  | succ fuel ih =>
    intro i j hij hjn hfuel hlo hhi
    unfold searchLoop
    by_cases hlt : i < j
    · have hm : (i + j) / 2 < n := by omega
      simp only [hlt, if_true, hf _ hm]
      cases hp : p ((i + j) / 2) with
      | false =>
        refine ih ((i + j) / 2 + 1) j (by omega) hjn (by omega) ?_ hhi
        intro k hk
        cases hk' : p k with
        | false => rfl
        | true =>
          have := hmono k ((i + j) / 2) (by omega) hm hk'
          rw [hp] at this
          exact absurd this (by simp)
      | true =>
        refine ih i ((i + j) / 2) (by omega) (by omega) (by omega) hlo ?_
        intro k hk hkn
        exact hmono _ k hk hkn hp
    · simp only [hlt, if_false]
      have : i = j := by omega
      subst this
      exact ⟨i, rfl, hjn, hlo, hhi⟩

theorem find?_of_first (q : node → Bool) :
    ∀ (l : List node) (r : Nat) (a : node), l.get? r = some a → q a = true →
      (∀ k b, k < r → l.get? k = some b → q b = false) → l.find? q = some a := by
  intro l
  induction l with
  | nil => intro r a h; simp at h
  | cons x xs ih =>
    intro r a hget hq hlo
    cases r with
    | zero =>
      simp at hget
      subst hget
      simp [List.find?, hq]
    | succ r =>
      have hx : q x = false := hlo 0 x (Nat.succ_pos _) (by simp)
      simp only [List.find?, hx]
      refine ih r a (by simpa using hget) hq ?_
      intro k b hk hb
      exact hlo (k + 1) b (by omega) (by simpa using hb)

theorem find?_none_of_all (q : node → Bool) (l : List node)
    (h : ∀ k b, l.get? k = some b → q b = false) : l.find? q = none := by
  rw [List.find?_eq_none]
  intro x hx
  obtain ⟨k, hk⟩ := List.mem_iff_get?.1 hx
  simp [h k x hk]

theorem swap_perm (l : List node) (i j : Nat) : (swap l i j).Perm l := by
  unfold swap
  cases hi : l.get? i with
  | none => simp
  | some a =>
    cases hj : l.get? j with
    | none => simp
    | some b =>
      simp only
      rw [List.get?_eq_some] at hi hj
      obtain ⟨hil, hia⟩ := hi
      obtain ⟨hjl, hjb⟩ := hj
      rw [List.perm_iff_count]
      intro x
      have hjl' : j < (l.set i b).length := by simpa using hjl
      rw [List.count_set _ _ _ _ hjl', List.count_set _ _ _ _ hil]
      have h1 := List.boole_getElem_le_countP (fun y => y == x) l i hil
      by_cases hij : i = j
      · subst hij
        have hab : a = b := by simpa using hia.symm.trans hjb
        subst hab
        simp only [List.get_eq_getElem] at hia
        simp only [List.getElem_set_self, hia]
        simp only [List.count_eq_countP, hia] at h1 ⊢
        omega
      · simp only [List.get_eq_getElem] at hia hjb
        rw [List.getElem_set_ne hij, hia, hjb]
        simp only [List.count_eq_countP, hia] at h1 ⊢
        omega

theorem shellPass_perm (l : List node) : (shellPass l).Perm l := by
  unfold shellPass
  generalize List.range (l.length - 6) = ks
  suffices H : ∀ acc : List node, acc.Perm l →
      (ks.foldl (fun acc k =>
        match acc.get? (k + 6), acc.get? k with
        | some a, some b => if Less a b then swap acc (k + 6) k else acc
        | _, _ => acc) acc).Perm l from H l (List.Perm.refl _)
  induction ks with
  | nil => intro acc h; simpa using h
  | cons k ks ih =>
    intro acc h
    simp only [List.foldl_cons]
    apply ih
    split
    · split
      · exact (swap_perm _ _ _).trans h
      · exact h
    · exact h

theorem get?_append_length (ys : List node) (a : node) (rest : List node) :
    (ys ++ a :: rest).get? ys.length = some a := by
  induction ys with
  | nil => rfl
  | cons z zs ih => simpa using ih

theorem get?_append_length_succ (ys : List node) (a b : node) (rest : List node) :
    (ys ++ a :: b :: rest).get? (ys.length + 1) = some b := by
  induction ys with
  | nil => rfl
  | cons z zs ih => simpa using ih

theorem swap_cons_succ (z : node) (l : List node) (i j : Nat) :
    swap (z :: l) (i + 1) (j + 1) = z :: swap l i j := by
  unfold swap
  simp only [List.get?_cons_succ]
  cases l.get? i with
  | none => rfl
  | some a =>
    cases l.get? j with
    | none => rfl
    | some b => rfl

theorem swap_adjacent (ys : List node) (y x : node) (rest : List node) :
    swap (ys ++ y :: x :: rest) (ys.length + 1) ys.length = ys ++ x :: y :: rest := by
  induction ys with
  | nil => rfl
  | cons z zs ih =>
    simp only [List.cons_append, List.length_cons]
    rw [swap_cons_succ, ih]

theorem sinkLoop_append (n : Nat) : ∀ (ys : List node) (x : node) (rest : List node),
    ys.length = n → SortedNodes ys →
    ∃ pre, sinkLoop (ys ++ x :: rest) ys.length = pre ++ rest ∧ pre.Perm (ys ++ [x]) ∧
      SortedNodes pre := by
  induction n with
  | zero =>
    intro ys x rest hlen _
    have : ys = [] := List.length_eq_zero.1 hlen
    subst this
    exact ⟨[x], rfl, List.Perm.refl _, List.pairwise_singleton _ _⟩
  | succ n ih =>
    intro ys x rest hlen hsorted
    obtain ⟨zs, y, rfl⟩ : ∃ zs y, ys = zs ++ [y] := by
      rcases List.eq_nil_or_concat ys with h | ⟨zs, y, h⟩
      · simp [h] at hlen
      · exact ⟨zs, y, by simpa using h⟩
    have hzl : zs.length = n := by simpa using hlen
    have hzs : SortedNodes zs := (List.pairwise_append.1 hsorted).1
    have hzy : ∀ a, a ∈ zs → a.nodeId ≤ y.nodeId := by
      intro a ha
      exact (List.pairwise_append.1 hsorted).2.2 a ha y (List.mem_singleton_self _)
    have hl : (zs ++ [y]).length = zs.length + 1 := by simp
    have hx : (zs ++ [y] ++ x :: rest).get? (zs.length + 1) = some x := by
      have := get?_append_length_succ zs y x rest
      simpa using this
    have hy : (zs ++ [y] ++ x :: rest).get? zs.length = some y := by
      have := get?_append_length zs y (x :: rest)
      simpa using this
    rw [hl]
    unfold sinkLoop
    simp only [hx, hy]
    by_cases hlt : Less x y = true
    · simp only [hlt, if_true]
      have hsw : swap (zs ++ [y] ++ x :: rest) (zs.length + 1) zs.length
          = zs ++ x :: y :: rest := by
        have := swap_adjacent zs y x rest
        simpa using this
      rw [hsw]
      obtain ⟨pre, hpre, hperm, hps⟩ := ih zs x (y :: rest) hzl hzs
      refine ⟨pre ++ [y], by rw [hpre]; simp, ?_, ?_⟩
      · refine (hperm.append_right [y]).trans ?_
        simp only [List.append_assoc, List.singleton_append]
        exact List.Perm.append_left zs (List.Perm.swap y x [])
      · refine List.pairwise_append.2 ⟨hps, List.pairwise_singleton _ _, ?_⟩
        intro a ha b hb
        rw [List.mem_singleton] at hb
        subst hb
        have ha' := hperm.mem_iff.1 ha
        rw [List.mem_append, List.mem_singleton] at ha'
        rcases ha' with ha' | ha'
        · exact hzy a ha'
        · subst ha'
          simp only [Less, decide_eq_true_eq] at hlt
          exact le_of_lt hlt
    · simp only [hlt]
      refine ⟨zs ++ [y] ++ [x], by simp, List.Perm.refl _, ?_⟩
      refine List.pairwise_append.2 ⟨hsorted, List.pairwise_singleton _ _, ?_⟩
      intro a ha b hb
      rw [List.mem_singleton] at hb
      subst hb
      have hyx : y.nodeId ≤ b.nodeId := by
        simp only [Less, decide_eq_true_eq, not_lt] at hlt
        exact hlt
      rw [List.mem_append, List.mem_singleton] at ha
      rcases ha with ha | ha
      · exact le_trans (hzy a ha) hyx
      · subst ha; exact hyx

theorem insertionSort_steps (l : List node) : ∀ m, m + 1 ≤ l.length →
    ∃ pre, (List.range m).foldl (fun acc k => sinkLoop acc (k + 1)) l = pre ++ l.drop (m + 1) ∧
      pre.Perm (l.take (m + 1)) ∧ SortedNodes pre := by
  intro m
  induction m with
  | zero =>
    intro hm
    refine ⟨l.take 1, (List.take_append_drop 1 l).symm, List.Perm.refl _, ?_⟩
    cases l with
    | nil => exact List.Pairwise.nil
    | cons a as => exact List.pairwise_singleton _ a
  | succ m ih =>
    intro hm
    obtain ⟨pre, hfold, hperm, hps⟩ := ih (by omega)
    have hlen : pre.length = m + 1 := by
      rw [hperm.length_eq, List.length_take]
      omega
    have hlt : m + 1 < l.length := by omega
    have hdrop : l.drop (m + 1) = l.get ⟨m + 1, hlt⟩ :: l.drop (m + 2) :=
      List.drop_eq_getElem_cons hlt
    rw [List.range_succ, List.foldl_append, hfold, hdrop]
    simp only [List.foldl_cons, List.foldl_nil]
    obtain ⟨pre2, h2, hperm2, hps2⟩ :=
      sinkLoop_append (m + 1) pre (l.get ⟨m + 1, hlt⟩) (l.drop (m + 2)) hlen hps
    rw [hlen] at h2
    refine ⟨pre2, h2, ?_, hps2⟩
    refine hperm2.trans ?_
    refine (hperm.append_right _).trans ?_
    have ht : l.take (m + 1) ++ [l.get ⟨m + 1, hlt⟩] = l.take (m + 1 + 1) := by
      simp
    rw [ht]

theorem insertionSort_perm_sorted (l : List node) :
    (insertionSort l).Perm l ∧ SortedNodes (insertionSort l) := by
  unfold insertionSort
  cases hl : l.length with
  | zero =>
    have : l = [] := List.length_eq_zero.1 hl
    subst this
    exact ⟨List.Perm.refl _, List.Pairwise.nil⟩
  | succ n =>
    obtain ⟨pre, hfold, hperm, hps⟩ := insertionSort_steps l n (by omega)
    have hd : l.drop (n + 1) = [] := by
      rw [List.drop_eq_nil_iff]; omega
    have ht : l.take (n + 1) = l := by
      rw [List.take_eq_self_iff]; omega
    simp only [Nat.add_sub_cancel]
    rw [hfold, hd, List.append_nil]
    rw [ht] at hperm
    exact ⟨hperm, hps⟩

theorem shellInsertionSort_spec : SortSpec shellInsertionSort := by
  intro l
  obtain ⟨hperm, hsorted⟩ := insertionSort_perm_sorted (shellPass l)
  constructor
  · exact hperm.trans (shellPass_perm l)
  · refine List.Pairwise.imp ?_ hsorted
    intro a b hab
    simpa [Less] using hab

theorem index_lt (ns : List node) (i : Nat) (hi : i < ns.length) :
    index ns i = .ok (ns.get ⟨i, hi⟩) := by
  unfold index
  rw [List.get?_eq_get hi]

theorem GetNode_nonempty (h : HashRing) (hne : h.nodes ≠ []) (x : String) :
    ∃ n, n ∈ h.nodes ∧ GetNode h x = .ok n.nodeName := by
  have hlen : 0 < h.nodes.length := List.length_pos.2 hne
  let p : Nat → Bool := fun k =>
    match h.nodes.get? k with
    | some a => decide (a.nodeId ≥ getHashKey x)
    | none => false
  have hf : ∀ k, k < h.nodes.length →
      (fun i => (index h.nodes i).map fun n => decide (n.nodeId ≥ getHashKey x)) k
        = .ok (p k) := by
    intro k hk
    simp only [p, index_lt _ _ hk, List.get?_eq_get hk]
    rfl
  obtain ⟨r, hr, _, _⟩ := searchLoop_ok _ p h.nodes.length hf
    h.nodes.length 0 h.nodes.length (Nat.zero_le _) (le_refl _)
  have hlt : r % h.nodes.length < h.nodes.length := Nat.mod_lt _ hlen
  refine ⟨h.nodes.get ⟨r % h.nodes.length, hlt⟩, List.get_mem _ _ _, ?_⟩
  unfold GetNode Search
  rw [if_neg (by omega)]
  simp only [hr]
  rw [index_lt _ _ hlt]
  rfl

theorem GetNode_empty (h : HashRing) (he : h.nodes = []) (x : String) :
    GetNode h x = .error "Hash ring is empty" := by
  simp [GetNode, he]

theorem ringAB_reachable : Reachable shellInsertionSort 2 ringAB :=
  Reachable.add _ _ _ (Reachable.add _ _ _ Reachable.empty)

theorem ring6_reachable : Reachable shellInsertionSort 1 ring6 :=
  Reachable.add _ _ _ (Reachable.add _ _ _ (Reachable.add _ _ _ (Reachable.add _ _ _
    (Reachable.add _ _ _ (Reachable.add _ _ _ Reachable.empty)))))

set_option maxRecDepth 1000000 in
theorem ringAB_nodes : ringAB.nodes = [⟨28870, "A"⟩, ⟨31144, "A"⟩, ⟨34155, "B"⟩, ⟨37365, "B"⟩] := by
  decide

set_option maxRecDepth 1000000 in
theorem ring6_nodes : ring6.nodes
    = [⟨3963, "xh"⟩, ⟨3963, "yd"⟩, ⟨4881, "a"⟩, ⟨6839, "d"⟩, ⟨16078, "b"⟩, ⟨36709, "c"⟩] := by
  decide

theorem packLoop_eq (d : List (Option String)) (w : List Nat) (count : Nat) :
    packLoop d w count
      = (w ++ ((d.takeWhile Option.isSome).filterMap id).flatMap (fun s => bytes s ++ [10]),
          count + (d.takeWhile Option.isSome).length) := by
  induction d generalizing w count with
  | nil => simp [packLoop]
  | cons a rest ih =>
    cases a with
    | none => simp [packLoop]
    | some s =>
      simp only [packLoop, ih, List.takeWhile_cons, Option.isSome_some, if_true,
        List.filterMap_cons, id, List.flatMap_cons, List.length_cons, List.append_assoc]
      congr 1
      omega

theorem namedCount_AddNode (sortFn : List node → List node) (hs : SortSpec sortFn)
    (h : HashRing) (k d : String) :
    namedCount (AddNode sortFn h k d).nodes d = namedCount h.nodes d + h.Vnodes.toNat := by
  unfold namedCount
  rw [AddNode_nodes, ((hs _).1.countP_eq _), List.countP_append]
  congr 1
  simp [newNodes, List.countP_map, List.countP_eq_length.2]

theorem writeLoop_full_read (gz : List Nat → List Nat)
    (queue : List (List (Option String) × PostOutcome))
    (hfull : ∀ m o, (m, o) ∈ queue → (gz (packDataPoints [] m).1).length ≤ o.consumed) :
    writeLoop gz queue [] = queue.map fun mo => gz (packDataPoints [] mo.1).1 := by
  induction queue with
  | nil => rfl
  | cons mo rest ih =>
    obtain ⟨m, o⟩ := mo
    simp only [writeLoop, List.nil_append, List.map_cons]
    rw [List.drop_of_length_le (hfull m o (List.mem_cons_self _ _))]
    rw [ih (fun m' o' hmem => hfull m' o' (List.mem_cons_of_mem _ hmem))]

/-- On a sorted, non-empty node list `GetNode` returns the name of the ring successor of
the hash position of the key. -/
theorem GetNode_sorted (h : HashRing) (hsorted : SortedNodes h.nodes) (hne : h.nodes ≠ [])
    (x : String) :
    ∃ n, ringSuccessor h.nodes (getHashKey x) = some n ∧ GetNode h x = .ok n.nodeName := by
  have hlen : 0 < h.nodes.length := List.length_pos.2 hne
  let p : Nat → Bool := fun k =>
    match h.nodes.get? k with
    | some a => decide (a.nodeId ≥ getHashKey x)
    | none => false
  have hf : ∀ k, k < h.nodes.length →
      (fun i => (index h.nodes i).map fun n => decide (n.nodeId ≥ getHashKey x)) k
        = .ok (p k) := by
    intro k hk
    simp only [p, index_lt _ _ hk, List.get?_eq_get hk]
    rfl
  have hmono : ∀ a b, a ≤ b → b < h.nodes.length → p a = true → p b = true := by
    intro a b hab hb hpa
    have ha : a < h.nodes.length := lt_of_le_of_lt hab hb
    simp only [p, List.get?_eq_get ha, List.get?_eq_get hb, decide_eq_true_eq] at hpa ⊢
    rcases Nat.lt_or_eq_of_le hab with hlt | heq
    · have := (List.pairwise_iff_get.1 hsorted) ⟨a, ha⟩ ⟨b, hb⟩ hlt
      exact le_trans hpa this
    · subst heq; exact hpa
  obtain ⟨r, hr, hrn, hlo, hhi⟩ := searchLoop_least _ p h.nodes.length hf hmono
    h.nodes.length 0 h.nodes.length (Nat.zero_le _) (le_refl _) (by omega)
    (fun k hk => absurd hk (Nat.not_lt_zero _)) (fun k hk hkn => absurd hkn (by omega))
  have hG : GetNode h x = (index h.nodes (r % h.nodes.length)).map fun n => n.nodeName := by
    unfold GetNode Search
    rw [if_neg (by omega)]
    simp only [hr]
  rcases Nat.lt_or_eq_of_le hrn with hlt | heq
  · refine ⟨h.nodes.get ⟨r, hlt⟩, ?_, ?_⟩
    · have hpr := hhi r (le_refl _) hlt
      simp only [p, List.get?_eq_get hlt, decide_eq_true_eq] at hpr
      have hfind : h.nodes.find? (fun n => decide (getHashKey x ≤ n.nodeId))
          = some (h.nodes.get ⟨r, hlt⟩) := by
        refine find?_of_first _ h.nodes r _ (List.get?_eq_get hlt) (by simpa using hpr) ?_
        intro k b hk hb
        have hpk := hlo k hk
        simp only [p, hb] at hpk
        simpa using hpk
      simp only [ringSuccessor, hfind]
    · rw [hG, Nat.mod_eq_of_lt hlt, index_lt _ _ hlt]
      rfl
  · subst heq
    refine ⟨h.nodes.get ⟨0, hlen⟩, ?_, ?_⟩
    · have hfind : h.nodes.find? (fun n => decide (getHashKey x ≤ n.nodeId)) = none := by
        apply find?_none_of_all
        intro k b hb
        have hk : k < h.nodes.length := by
          rw [List.get?_eq_some] at hb
          exact hb.1
        have hpk := hlo k hk
        simp only [p, hb] at hpk
        simpa using hpk
      simp only [ringSuccessor, hfind]
      exact (List.get?_zero _).symm.trans (List.get?_eq_get hlen)
    · rw [hG, Nat.mod_self, index_lt _ _ hlen]
      rfl

/-- The ring successor of `hk` in a sorted list is a node of least position among the
nodes at or after `hk`, and a node of least position overall when there is none. -/
theorem ringSuccessor_least (ns : List node) (hsorted : SortedNodes ns) (hk : Int) (n : node)
    (hn : ringSuccessor ns hk = some n) :
    n ∈ ns ∧ ((hk ≤ n.nodeId ∧ ∀ b, b ∈ ns → hk ≤ b.nodeId → n.nodeId ≤ b.nodeId) ∨
      ((∀ b, b ∈ ns → b.nodeId < hk) ∧ ∀ b, b ∈ ns → n.nodeId ≤ b.nodeId)) := by
  unfold ringSuccessor at hn
  cases hfind : ns.find? (fun n => decide (hk ≤ n.nodeId)) with
  | some m =>
    rw [hfind] at hn
    simp only [Option.some.injEq] at hn
    subst hn
    obtain ⟨hpm, as, bs, hsplit, has⟩ := List.find?_eq_some.1 hfind
    have hkm : hk ≤ m.nodeId := by simpa using hpm
    subst hsplit
    refine ⟨by simp, Or.inl ⟨hkm, ?_⟩⟩
    intro b hb hkb
    rw [List.mem_append, List.mem_cons] at hb
    rcases hb with hb | hb | hb
    · have := has b hb
      simp only [Bool.not_eq_true', decide_eq_false_iff_not] at this
      exact absurd hkb this
    · rw [hb]
    · have hcons := (List.pairwise_append.1 hsorted).2.1
      exact (List.pairwise_cons.1 hcons).1 b hb
  | none =>
    rw [hfind] at hn
    simp only at hn
    have hall : ∀ b, b ∈ ns → b.nodeId < hk := by
      intro b hb
      have := List.find?_eq_none.1 hfind b hb
      simpa using this
    cases ns with
    | nil => simp at hn
    | cons a tl =>
      simp only [List.head?_cons, Option.some.injEq] at hn
      subst hn
      refine ⟨by simp, Or.inr ⟨hall, ?_⟩⟩
      intro b hb
      rw [List.mem_cons] at hb
      rcases hb with hb | hb
      · rw [hb]
      · exact (List.pairwise_cons.1 hsorted).1 b hb

/-- On a ring with no node named `d`, the node list after `AddNode k d` and `RemoveNode d`
is a sorted rearrangement of the node list before. -/
theorem roundtrip_perm (sortFn : List node → List node) (hs : SortSpec sortFn) (h : HashRing)
    (k d : String) (hno : ∀ n, n ∈ h.nodes → n.nodeName ≠ d) :
    (RemoveNode (AddNode sortFn h k d) d).nodes.Perm h.nodes ∧
      SortedNodes (RemoveNode (AddNode sortFn h k d) d).nodes := by
  constructor
  · rw [RemoveNode_nodes, AddNode_nodes]
    refine ((hs _).1.filter _).trans ?_
    rw [List.filter_append]
    have h1 : h.nodes.filter (fun n => n.nodeName != d) = h.nodes := by
      rw [List.filter_eq_self]
      intro a ha
      simpa using hno a ha
    have h2 : (newNodes h.Vnodes.toNat k d).filter (fun n => n.nodeName != d) = [] := by
      rw [List.filter_eq_nil_iff]
      intro a ha
      simp only [newNodes, List.mem_map] at ha
      obtain ⟨i, _, rfl⟩ := ha
      simp
    rw [h1, h2, List.append_nil]
  · rw [RemoveNode_nodes, AddNode_nodes]
    exact List.Pairwise.filter _ (SortSpec_sorted hs _)

set_option maxRecDepth 1000000 in
theorem getHashKey_q72815 : getHashKey "q72815" = 31144 := by
  decide

/-! ## The claims -/

/-- C1: on every non-empty ring reached from the empty ring by `AddNode` and
`RemoveNode` calls, `GetNode x` succeeds and returns the destination name of the
first node in list order whose position is at least `getHashKey x`, or of the node
at index 0 when no node has such a position. -/
theorem GetNode_returns_ringSuccessor (sortFn : List node → List node)
    (hs : SortSpec sortFn) (v : Int) (h : HashRing) (hr : Reachable sortFn v h)
    (hne : h.nodes ≠ []) (x : String) :
    ∃ n, ringSuccessor h.nodes (getHashKey x) = some n ∧ GetNode h x = .ok n.nodeName := by
  exact GetNode_sorted h (Reachable_sorted hs hr) hne x

theorem GetNode_returns_ringSuccessor_witness :
    SortSpec shellInsertionSort ∧ Reachable shellInsertionSort 2 ringAB ∧ ringAB.nodes ≠ [] ∧
      ∃ n, ringSuccessor ringAB.nodes (getHashKey "foo") = some n ∧
        GetNode ringAB "foo" = .ok n.nodeName :=
  have hne : ringAB.nodes ≠ [] := by rw [ringAB_nodes]; decide
  ⟨shellInsertionSort_spec, ringAB_reachable, hne,
    GetNode_returns_ringSuccessor shellInsertionSort shellInsertionSort_spec 2 ringAB
      ringAB_reachable hne "foo"⟩

set_option maxRecDepth 1000000 in
/-- C2, counterexample: with `Vnodes = 1`, the ring built by adding the destinations
`xh`, `yd`, `a`, `b`, `c`, `d` holds `xh` and `yd` at the same position 3963 and no node
named `vu`.  With the gap-6 pass and insertion sort for `sort.Sort` (its routine on
the seven nodes of this step in Go 1.7 to 1.18, and an instance of the contract of
`sort.Sort`), `AddNode vu vu` followed by `RemoveNode vu` exchanges the two tied
nodes, and `GetNode "vu:0"` returns `yd` where it returned `xh` before. -/
theorem roundtrip_exchanges_tied_nodes :
    SortSpec shellInsertionSort ∧ Reachable shellInsertionSort 1 ring6 ∧
      (∀ n, n ∈ ring6.nodes → n.nodeName ≠ "vu") ∧
      GetNode ring6 "vu:0" = .ok "xh" ∧
      GetNode (RemoveNode (AddNode shellInsertionSort ring6 "vu" "vu") "vu") "vu:0"
        = .ok "yd" :=
  ⟨shellInsertionSort_spec, ring6_reachable, by rw [ring6_nodes]; decide, by rfl, by rfl⟩

/-- C2, amended: on every ring reached from the empty ring by `AddNode` and
`RemoveNode` calls that holds no node named `d`, for every key name `k` and every
key `x` such that every node of the ring at the position of the node serving `x`
(the first node in list order with position at least `getHashKey x`, the node at
index 0 when there is none) has the destination name of that node: `GetNode x`
after `AddNode k d` followed by `RemoveNode d` returns the same result (the same
destination name, or the same empty-ring error) as before the two calls. -/
theorem roundtrip_restores_routing (sortFn : List node → List node) (hs : SortSpec sortFn)
    (v : Int) (h : HashRing) (hr : Reachable sortFn v h) (d : String)
    (hno : ∀ n, n ∈ h.nodes → n.nodeName ≠ d) (k x : String)
    (htie : ∀ n, ringSuccessor h.nodes (getHashKey x) = some n →
      ∀ b, b ∈ h.nodes → b.nodeId = n.nodeId → b.nodeName = n.nodeName) :
    GetNode (RemoveNode (AddNode sortFn h k d) d) x = GetNode h x := by
  have hsorted : SortedNodes h.nodes := Reachable_sorted hs hr
  obtain ⟨hperm, hsorted'⟩ := roundtrip_perm sortFn hs h k d hno
  by_cases hne : h.nodes = []
  · have hne' : (RemoveNode (AddNode sortFn h k d) d).nodes = [] := by
      rw [hne] at hperm
      exact List.Perm.eq_nil hperm
    rw [GetNode_empty _ hne' x, GetNode_empty _ hne x]
  · have hne' : (RemoveNode (AddNode sortFn h k d) d).nodes ≠ [] := by
      intro he
      rw [he] at hperm
      exact hne (List.Perm.eq_nil hperm.symm)
    obtain ⟨n, hn, hG⟩ := GetNode_sorted h hsorted hne x
    obtain ⟨n', hn', hG'⟩ := GetNode_sorted _ hsorted' hne' x
    obtain ⟨hmem, hleast⟩ := ringSuccessor_least _ hsorted _ n hn
    obtain ⟨hmem', hleast'⟩ := ringSuccessor_least _ hsorted' _ n' hn'
    have hmem'' : n' ∈ h.nodes := hperm.mem_iff.1 hmem'
    have hnmem : n ∈ (RemoveNode (AddNode sortFn h k d) d).nodes := hperm.mem_iff.2 hmem
    have hid : n'.nodeId = n.nodeId := by
      rcases hleast with ⟨hkn, hmin⟩ | ⟨hall, hmin⟩
      · rcases hleast' with ⟨hkn', hmin'⟩ | ⟨hall', _⟩
        · exact le_antisymm (hmin' n hnmem hkn) (hmin n' hmem'' hkn')
        · exact absurd (hall' n hnmem) (not_lt.2 hkn)
      · rcases hleast' with ⟨hkn', _⟩ | ⟨_, hmin'⟩
        · exact absurd (hall n' hmem'') (not_lt.2 hkn')
        · exact le_antisymm (hmin' n hnmem) (hmin n' hmem'')
    rw [hG, hG', htie n hn n' hmem'' hid]

theorem roundtrip_restores_routing_witness :
    (∀ n, n ∈ ring6.nodes → n.nodeName ≠ "vu") ∧
      GetNode (RemoveNode (AddNode shellInsertionSort ring6 "vu" "vu") "vu") "q72815"
        = GetNode ring6 "q72815" :=
  have hno : ∀ n, n ∈ ring6.nodes → n.nodeName ≠ "vu" := by rw [ring6_nodes]; decide
  ⟨hno, roundtrip_restores_routing shellInsertionSort shellInsertionSort_spec 1 ring6
    ring6_reachable "vu" hno "vu" "q72815" (by
      rw [ring6_nodes, getHashKey_q72815]
      intro n hn
      have hn' : n = ⟨36709, "c"⟩ := by
        have : ringSuccessor [(⟨3963, "xh"⟩ : node), ⟨3963, "yd"⟩, ⟨4881, "a"⟩, ⟨6839, "d"⟩,
            ⟨16078, "b"⟩, ⟨36709, "c"⟩] 31144 = some ⟨36709, "c"⟩ := by decide
        rw [this] at hn
        exact (Option.some.inj hn).symm
      subst hn'
      decide)⟩

/-- C3: in every ring state reached from the empty ring by `AddNode` and `RemoveNode`
calls, the node list is sorted in non-decreasing order of position. -/
theorem reachable_nodes_sorted (sortFn : List node → List node) (hs : SortSpec sortFn)
    (v : Int) (h : HashRing) (hr : Reachable sortFn v h) :
    h.nodes.Pairwise (fun a b => a.nodeId ≤ b.nodeId) := by
  induction hr with
  | empty => exact List.Pairwise.nil
  | add h k d _ _ =>
    rw [AddNode_nodes]
    refine ((hs _).2).imp ?_
    intro a b hab
    simpa [Less] using hab
  | remove h d _ ih =>
    rw [RemoveNode_nodes]
    exact List.Pairwise.filter _ ih

theorem reachable_nodes_sorted_witness :
    SortSpec shellInsertionSort ∧ Reachable shellInsertionSort 1 ring6 ∧
      ring6.nodes.Pairwise (fun a b => a.nodeId ≤ b.nodeId) :=
  ⟨shellInsertionSort_spec, ring6_reachable,
    reachable_nodes_sorted shellInsertionSort shellInsertionSort_spec 1 ring6 ring6_reachable⟩

/-- C4: for every string `s`, `getHashKey s` is `256 * b0 + b1` for the first two bytes
`b0`, `b1` of the MD5 digest of `s`; the two bytes are printed as four hexadecimal
digits, the parse of which raises no error, and the result lies in `0..65535`. -/
theorem getHashKey_first_two_bytes (s : String) :
    getHashKey s = 256 * ((md5.Sum (bytes s)).getD 0 0 : Int) + ((md5.Sum (bytes s)).getD 1 0 : Int)
      ∧ (sprintfHex ((md5.Sum (bytes s)).take 2)).length = 4
      ∧ (ParseInt (sprintfHex ((md5.Sum (bytes s)).take 2))).2 = false
      ∧ 0 ≤ getHashKey s ∧ getHashKey s ≤ 65535 := by
  obtain ⟨hk, h0, h1⟩ := getHashKey_bytes s
  obtain ⟨a, ht, -, -⟩ := md5_Sum_take_two (bytes s)
  refine ⟨hk, by simp [ht, sprintfHex], ?_, by omega, by omega⟩
  simp only [ht, sprintfHex, List.flatMap_cons, List.flatMap_nil, List.append_nil,
    List.cons_append, List.nil_append]
  rw [ParseInt_four _ _ _ _ (by omega) (Nat.mod_lt _ (by norm_num)) (by omega)
    (Nat.mod_lt _ (by norm_num))]

/-- C5: on a ring with `Vnodes = n ≥ 0`, the node list after `AddNode k d` is a
permutation of the previous node list together with exactly `n` new nodes: for each
`i` in `0..n-1` the node named `d` at position `getHashKey` of the label made of `k`, a
colon and the decimal representation of `i`. -/
theorem AddNode_nodes_perm (sortFn : List node → List node) (hs : SortSpec sortFn)
    (h : HashRing) (n : Nat) (hn : h.Vnodes = (n : Int)) (k d : String) :
    (AddNode sortFn h k d).nodes.Perm
        (h.nodes ++ (List.range n).map fun i => ⟨getHashKey (k ++ ":" ++ Nat.repr i), d⟩)
      ∧ ((List.range n).map fun i =>
          (⟨getHashKey (k ++ ":" ++ Nat.repr i), d⟩ : node)).length = n := by
  refine ⟨?_, by simp⟩
  rw [AddNode_nodes, hn]
  exact (hs _).1

theorem AddNode_nodes_perm_witness :
    (AddNode shellInsertionSort ⟨2, [⟨7, "B"⟩]⟩ "x" "A").nodes.Perm
        ([⟨7, "B"⟩] ++ (List.range 2).map fun i => ⟨getHashKey ("x" ++ ":" ++ Nat.repr i), "A"⟩)
      ∧ ((List.range 2).map fun i =>
          (⟨getHashKey ("x" ++ ":" ++ Nat.repr i), "A"⟩ : node)).length = 2 :=
  AddNode_nodes_perm shellInsertionSort shellInsertionSort_spec ⟨2, [⟨7, "B"⟩]⟩ 2 rfl "x" "A"

set_option maxRecDepth 1000000 in
/-- C6, counterexample: on the ring with `Vnodes = 1` that already holds the node of
destination `d` (reached by `AddNode k d`), a second `AddNode k d` leaves two nodes
named `d`, not `Vnodes = 1`. -/
theorem AddNode_existing_name_count :
    Reachable shellInsertionSort 1 ringD ∧
      (AddNode shellInsertionSort ringD "k" "d").Vnodes = 1 ∧
      namedCount (AddNode shellInsertionSort ringD "k" "d").nodes "d" = 2 :=
  ⟨Reachable.add _ _ _ Reachable.empty, rfl, by decide⟩

/-- C6, amended: on every ring with `Vnodes ≥ 0` that holds no node named `d`, after
`AddNode k d` exactly `Vnodes` nodes of the ring have destination name `d`. -/
theorem AddNode_count_fresh (sortFn : List node → List node) (hs : SortSpec sortFn)
    (h : HashRing) (k d : String) (hv : 0 ≤ h.Vnodes)
    (hno : ∀ n, n ∈ h.nodes → n.nodeName ≠ d) :
    (namedCount (AddNode sortFn h k d).nodes d : Int) = (AddNode sortFn h k d).Vnodes := by
  have h0 : namedCount h.nodes d = 0 := by
    unfold namedCount
    rw [List.countP_eq_zero]
    intro a ha
    simpa using hno a ha
  rw [namedCount_AddNode sortFn hs, h0, AddNode_Vnodes]
  simp [Int.toNat_of_nonneg hv]

theorem AddNode_count_fresh_witness :
    (namedCount (AddNode shellInsertionSort ringAB "z" "C").nodes "C" : Int)
      = (AddNode shellInsertionSort ringAB "z" "C").Vnodes :=
  AddNode_count_fresh shellInsertionSort shellInsertionSort_spec ringAB "z" "C"
    (by decide) (by rw [ringAB_nodes]; decide)

/-- C7: the node list after `RemoveNode d` is the previous node list with every node
named `d` filtered out, the other nodes kept in their previous relative order; no
node is named `d` afterwards, and `Vnodes` is unchanged. -/
theorem RemoveNode_filters (h : HashRing) (d : String) :
    (RemoveNode h d).nodes = h.nodes.filter (fun n => decide (n.nodeName ≠ d))
      ∧ (RemoveNode h d).nodes.Sublist h.nodes
      ∧ (∀ n, n ∈ (RemoveNode h d).nodes → n.nodeName ≠ d)
      ∧ (∀ n, n ∈ h.nodes → n.nodeName ≠ d → n ∈ (RemoveNode h d).nodes)
      ∧ (RemoveNode h d).Vnodes = h.Vnodes := by
  have hf : (RemoveNode h d).nodes = h.nodes.filter (fun n => decide (n.nodeName ≠ d)) := by
    rw [RemoveNode_nodes]
    congr 1
    funext n
    by_cases hnd : n.nodeName = d <;> simp [hnd]
  refine ⟨hf, ?_, ?_, ?_, rfl⟩
  · rw [hf]; exact List.filter_sublist _
  · intro n hn
    rw [hf, List.mem_filter] at hn
    simpa using hn.2
  · intro n hn hne
    rw [hf, List.mem_filter]
    exact ⟨hn, by simpa using hne⟩

/-- C8: `GetNode x` fails with the empty-ring error if and only if the ring has no
nodes; on a ring with at least one node it returns the destination name of one of
the nodes and no error. -/
theorem GetNode_error_iff_empty (h : HashRing) (x : String) :
    (GetNode h x = .error "Hash ring is empty" ↔ h.nodes = []) ∧
      (h.nodes ≠ [] → ∃ n, n ∈ h.nodes ∧ GetNode h x = .ok n.nodeName) := by
  refine ⟨⟨?_, fun he => GetNode_empty h he x⟩, fun hne => GetNode_nonempty h hne x⟩
  intro herr
  by_contra hne
  obtain ⟨n, _, hok⟩ := GetNode_nonempty h hne x
  rw [hok] at herr
  cases herr

theorem GetNode_error_iff_empty_witness :
    ringAB.nodes ≠ [] ∧ ∃ n, n ∈ ringAB.nodes ∧ GetNode ringAB "foo" = .ok n.nodeName :=
  have hne : ringAB.nodes ≠ [] := by rw [ringAB_nodes]; decide
  ⟨hne, (GetNode_error_iff_empty ringAB "foo").2 hne⟩

/-- C9, evaluation at the failing input: the batch `a` meets a transport error before
the client has read any byte of the body, then the batch `b` is taken from the
queue.  The body offered with `b` starts with the compressed stream of `a`. -/
theorem writeStream_resends_unread_batch (gz : List Nat → List Nat) (o : PostOutcome) :
    writeStream gz [([some "a"], ⟨PostResult.transportError, 0⟩), ([some "b"], o)]
      = [gz [97, 10], gz [97, 10] ++ gz [98, 10]] := by
  rfl

/-- C10: `packDataPoints` writes to the compressor, in order, each entry that precedes
the first nil entry followed by one newline byte (10), writes nothing for the first
nil entry or any entry after it, and returns the number of entries it wrote. -/
theorem packDataPoints_writes (w : List Nat) (d : List (Option String)) :
    packDataPoints w d
      = (w ++ ((d.takeWhile Option.isSome).filterMap id).flatMap (fun s => bytes s ++ [10]),
          (d.takeWhile Option.isSome).length) := by
  rw [packDataPoints, packLoop_eq, Nat.zero_add]

end Polymur
